import Mathlib

/-!
Verification of the `LearningManager` data layer of the Cybersecurity
repository (a browser-based personal knowledge organizer).

The manager keeps `this.topics`, a JavaScript array of plain JSON-like
records, and persists it to `localStorage` as one JSON blob
(`src/learning-manager/script.js`, `src/learning-manager/create-post.js`,
`src/unnamed/part_000`, `src/unnamed/part_001`, `src/unnamed/part_002`).

Embedding choices:
* JSON values are the mutual inductive `Json` / `JsonList` / `JsonFields`.
  JSON number literals are IEEE-754 doubles in a browser; floating point is
  outside this embedding, so numbers are modelled as integers.  The
  repository's records only ever store strings, arrays and objects
  (ids, names, ISO timestamps, subtopic strings, link records, data-URL
  images), so nothing is lost for the claims below.
* `localStorage` is a total map `String → Option String`;
  `localStorage.setItem` is `setItem`.
* `JSON.stringify` / `JSON.parse` are the host primitives the code calls;
  they are modelled by the executable `stringify` and `parse` below.
  `stringify` produces compact output: `JSON.stringify(x, null, 2)` differs
  from it only by inter-token whitespace, which `JSON.parse` ignores.
  `parse` is strict about whitespace and does not accept `\u` escapes,
  floating-point syntax or a leading-zero check; none of these affect the
  claims, which quantify over values produced by `stringify` or use
  `parse s = none` as the formalisation of "the stored string is not valid
  JSON".
* `Date.now()`, `new Date().toISOString()` and `Math.random()` are inputs,
  collected in `Env`: the millisecond clock, the ISO timestamp string and
  the base-36 fraction digits of the random number.
-/

mutual
inductive Json where
  | null
  | bool (b : Bool)
  | num (n : Int)
  | str (s : String)
  | arr (elems : JsonList)
  | obj (fields : JsonFields)
  deriving DecidableEq, Repr

inductive JsonList where
  | nil
  | cons (hd : Json) (tl : JsonList)
  deriving DecidableEq, Repr

inductive JsonFields where
  | nil
  | cons (key : String) (val : Json) (tl : JsonFields)
  deriving DecidableEq, Repr
end

/-- Convert an embedded JSON array to a Lean list. -/
def JsonList.toList : JsonList → List Json
  | .nil => []
  | .cons x xs => x :: xs.toList

/-- Convert a Lean list to an embedded JSON array. -/
def JsonList.ofList : List Json → JsonList
  | [] => .nil
  | x :: xs => .cons x (JsonList.ofList xs)

/-- Convert embedded JSON object fields to a Lean association list. -/
def JsonFields.toFields : JsonFields → List (String × Json)
  | .nil => []
  | .cons k v fs => (k, v) :: fs.toFields

/-- Convert a Lean association list to embedded JSON object fields. -/
def JsonFields.ofFields : List (String × Json) → JsonFields
  | [] => .nil
  | (k, v) :: fs => .cons k v (JsonFields.ofFields fs)

theorem JsonList.toList_ofList (l : List Json) : (JsonList.ofList l).toList = l := by
  induction l with
  | nil => rfl
  | cons x xs ih => simp [JsonList.ofList, JsonList.toList, ih]

theorem JsonList.ofList_toList : ∀ l : JsonList, JsonList.ofList l.toList = l
  | .nil => rfl
  | .cons x xs => by simp [JsonList.toList, JsonList.ofList, JsonList.ofList_toList xs]

theorem JsonFields.toFields_ofFields (l : List (String × Json)) :
    (JsonFields.ofFields l).toFields = l := by
  induction l with
  | nil => rfl
  | cons kv fs ih => cases kv; simp [JsonFields.ofFields, JsonFields.toFields, ih]

theorem JsonFields.ofFields_toFields : ∀ l : JsonFields, JsonFields.ofFields l.toFields = l
  | .nil => rfl
  | .cons k v fs => by
    simp [JsonFields.toFields, JsonFields.ofFields, JsonFields.ofFields_toFields fs]

/-- First-match lookup in an association list of object fields.  JavaScript
objects never hold a key twice, so first match is exact. -/
def lookupF : List (String × Json) → String → Option Json
  | [], _ => none
  | (k', v') :: fs, k => if k' = k then some v' else lookupF fs k

/-- JavaScript property read `x[k]`: the field value of an object, and
`undefined` (`none`) on every non-object. -/
def Json.getF : Json → String → Option Json
  | .obj fs, k => lookupF fs.toFields k
  | _, _ => none

/-- JavaScript property write semantics, which is also the semantics of a
repeated key in an object literal such as `...spread, contents: c`: an
existing key keeps its position and receives the new value, a new key is
appended at the end. -/
def insertField : List (String × Json) → String → Json → List (String × Json)
  | [], k, v => [(k, v)]
  | (k', v') :: fs, k, v => if k' = k then (k, v) :: fs else (k', v') :: insertField fs k v

theorem lookupF_insertField_self (fs : List (String × Json)) (k : String) (v : Json)
    (h : lookupF fs k = some v) : insertField fs k v = fs := by
  induction fs with
  | nil => simp [lookupF] at h
  | cons kv fs ih =>
    obtain ⟨k', v'⟩ := kv
    by_cases hk : k' = k
    · subst hk
      simp [lookupF] at h
      simp [insertField, h]
    · simp [lookupF, hk] at h
      simp [insertField, hk, ih h]

theorem lookupF_insertField (fs : List (String × Json)) (k : String) (v : Json) :
    lookupF (insertField fs k v) k = some v := by
  induction fs with
  | nil => simp [insertField, lookupF]
  | cons kv fs ih =>
    obtain ⟨k', v'⟩ := kv
    by_cases hk : k' = k
    · simp [insertField, hk, lookupF]
    · simp [insertField, hk, lookupF, ih]

/-- Decimal digit characters. -/
def digitChar (d : Nat) : Char := Char.ofNat (48 + d)

def isDigitChar (c : Char) : Bool := decide ('0' ≤ c) && decide (c ≤ '9')

def digitVal (c : Char) : Nat := c.toNat - 48

/-- Decimal rendering of a natural number, most significant digit first.
The fuel argument only bounds the recursion; `n + 1` iterations always
suffice because `n / 10 < n` for positive `n`. -/
def natDecAux : Nat → Nat → List Char → List Char
  | 0, _, acc => acc
  | f + 1, n, acc => if n = 0 then acc else natDecAux f (n / 10) (digitChar (n % 10) :: acc)

def natDec (n : Nat) : List Char := if n = 0 then ['0'] else natDecAux (n + 1) n []

/-- Rendering of an integer, as `JSON.stringify` prints an integral number. -/
def intDec (n : Int) : List Char :=
  if n < 0 then '-' :: natDec n.natAbs else natDec n.natAbs

/-- Base-36 digit characters, as `Number.prototype.toString(36)` uses:
`0`-`9` then lowercase `a`-`z`. -/
def base36Digit (d : Nat) : Char :=
  if d < 10 then Char.ofNat (48 + d) else Char.ofNat (87 + d)

def natBase36Aux : Nat → Nat → List Char → List Char
  | 0, _, acc => acc
  | f + 1, n, acc => if n = 0 then acc else natBase36Aux f (n / 36) (base36Digit (n % 36) :: acc)

/-- Base-36 rendering of a natural number, the model of
`Date.now().toString(36)`. -/
def natBase36 (n : Nat) : String :=
  if n = 0 then "0" else String.mk (natBase36Aux (n + 1) n [])

theorem natDecAux_acc (f : Nat) : ∀ n acc, natDecAux f n acc = natDecAux f n [] ++ acc := by
  induction f with
  | zero => intro n acc; simp [natDecAux]
  | succ f ih =>
    intro n acc
    by_cases hn : n = 0
    · simp [natDecAux, hn]
    · simp only [natDecAux, hn, if_false]
      rw [ih (n / 10) (digitChar (n % 10) :: acc), ih (n / 10) [digitChar (n % 10)]]
      simp

theorem natDecAux_eq (f : Nat) (n : Nat) (hn : n ≠ 0) (hf : n < f) :
    ∃ g, f = g + 1 ∧
      natDecAux f n [] = natDecAux g (n / 10) [] ++ [digitChar (n % 10)] := by
  cases f with
  | zero => omega
  | succ g =>
    refine ⟨g, rfl, ?_⟩
    simp only [natDecAux, hn, if_false]
    exact natDecAux_acc g (n / 10) [digitChar (n % 10)]

theorem natDecAux_digits (f : Nat) : ∀ n, ∀ c ∈ natDecAux f n [], isDigitChar c = true := by
  induction f with
  | zero => intro n c hc; simp [natDecAux] at hc
  | succ f ih =>
    intro n c hc
    by_cases hn : n = 0
    · simp [natDecAux, hn] at hc
    · simp only [natDecAux, hn, if_false] at hc
      rw [natDecAux_acc] at hc
      rcases List.mem_append.1 hc with h | h
      · exact ih (n / 10) c h
      · simp at h
        subst h
        have h10 : n % 10 < 10 := Nat.mod_lt _ (by omega)
        interval_cases h : n % 10 <;> decide

theorem natDec_digits (n : Nat) : ∀ c ∈ natDec n, isDigitChar c = true := by
  intro c hc
  by_cases hn : n = 0
  · simp [natDec, hn] at hc; subst hc; decide
  · simp only [natDec, hn, if_false] at hc
    exact natDecAux_digits (n + 1) n c hc

theorem natDec_ne_nil (n : Nat) : natDec n ≠ [] := by
  by_cases hn : n = 0
  · simp [natDec, hn]
  · obtain ⟨g, _, heq⟩ := natDecAux_eq (n + 1) n hn (by omega)
    simp [natDec, hn, heq]

/-- Value of a decimal digit string, most significant digit first. -/
def digitsToNat (cs : List Char) : Nat := cs.foldl (fun a c => 10 * a + digitVal c) 0

theorem digitVal_digitChar (d : Nat) (hd : d < 10) : digitVal (digitChar d) = d := by
  interval_cases d <;> decide

theorem foldl_natDecAux (n : Nat) : ∀ f, n < f → ∀ a,
    List.foldl (fun a c => 10 * a + digitVal c) a (natDecAux f n []) =
      a * 10 ^ (natDecAux f n []).length + n := by
  induction n using Nat.strong_induction_on with
  | _ n ih =>
    intro f hf a
    by_cases hn : n = 0
    · subst hn
      obtain ⟨g, rfl⟩ : ∃ g, f = g + 1 := ⟨f - 1, by omega⟩
      simp [natDecAux]
    · obtain ⟨g, rfl, heq⟩ := natDecAux_eq f n hn hf
      have hdiv : n / 10 < n := Nat.div_lt_self (by omega) (by omega)
      have hg : n / 10 < g := by omega
      rw [heq, List.foldl_append, ih (n / 10) hdiv g hg a]
      have hmod : n % 10 < 10 := Nat.mod_lt _ (by omega)
      simp [digitVal_digitChar _ hmod, List.length_append, pow_succ]
      have := Nat.div_add_mod n 10
      ring_nf
      omega

theorem digitsToNat_natDec (n : Nat) : digitsToNat (natDec n) = n := by
  by_cases hn : n = 0
  · subst hn; decide
  · simp only [natDec, hn, if_false, digitsToNat]
    rw [foldl_natDecAux n (n + 1) (by omega) 0]
    simp

/-- Longest digit run at the head of the input, and the remainder. -/
def takeDigits : List Char → List Char × List Char
  | [] => ([], [])
  | c :: cs =>
    if isDigitChar c then
      let p := takeDigits cs
      (c :: p.1, p.2)
    else ([], c :: cs)

/-- True when the input does not begin with a decimal digit, so that a
maximal digit run ending just before it is read back unchanged. -/
def headOkB : List Char → Bool
  | [] => true
  | c :: _ => !(isDigitChar c)

theorem takeDigits_append (ds : List Char) (rest : List Char)
    (hds : ∀ c ∈ ds, isDigitChar c = true) (hrest : headOkB rest = true) :
    takeDigits (ds ++ rest) = (ds, rest) := by
  induction ds with
  | nil =>
    cases rest with
    | nil => simp [takeDigits]
    | cons c r =>
      simp [headOkB] at hrest
      simp [takeDigits, hrest]
  | cons d ds ih =>
    have hd : isDigitChar d = true := hds d (by simp)
    have ih' := ih (fun c hc => hds c (by simp [hc]))
    simp [takeDigits, hd, ih']

/-- Integer-literal fragment of the number grammar of `JSON.parse`:
an optional minus sign followed by a maximal digit run.  Fraction and
exponent syntax is floating point and outside the embedding. -/
def parseNumber : List Char → Option (Json × List Char)
  | [] => none
  | c :: rest =>
    if c = '-' then
      let p := takeDigits rest
      if p.1 = [] then none else some (.num (-(digitsToNat p.1 : Int)), p.2)
    else
      let p := takeDigits (c :: rest)
      if p.1 = [] then none else some (.num ((digitsToNat p.1 : Int)), p.2)

theorem parseNumber_intDec (n : Int) (rest : List Char) (hrest : headOkB rest = true) :
    parseNumber (intDec n ++ rest) = some (.num n, rest) := by
  by_cases hneg : n < 0
  · have habs : ((n.natAbs : Nat) : Int) = -n := by
      rw [← Int.natAbs_neg]
      exact Int.natAbs_of_nonneg (by omega)
    simp only [intDec, hneg, if_true, List.cons_append, parseNumber, if_pos rfl]
    rw [takeDigits_append _ _ (natDec_digits _) hrest]
    simp [natDec_ne_nil, digitsToNat_natDec, habs]
  · have habs : ((n.natAbs : Nat) : Int) = n := Int.natAbs_of_nonneg (by omega)
    simp only [intDec, hneg, if_false]
    cases hnd : natDec n.natAbs with
    | nil => exact absurd hnd (natDec_ne_nil _)
    | cons c cs =>
      have hcdig : isDigitChar c = true := by
        have := natDec_digits n.natAbs c (by simp [hnd])
        exact this
      have hcm : ¬(c = '-') := by
        intro h; subst h; simp [isDigitChar] at hcdig
      have htake : takeDigits (natDec n.natAbs ++ rest) = (natDec n.natAbs, rest) :=
        takeDigits_append _ _ (natDec_digits _) hrest
      rw [hnd] at htake
      simp only [hnd, List.cons_append, parseNumber, if_neg hcm]
      simp only [← List.cons_append, htake]
      simp [← hnd, natDec_ne_nil, digitsToNat_natDec, habs]

/-- Escaping of one character inside a JSON string literal, as
`JSON.stringify` performs it.  Control characters other than newline, tab
and carriage return never occur in the repository's data and are passed
through. -/
def escChar (c : Char) : List Char :=
  if c = '"' then ['\\', '"']
  else if c = '\\' then ['\\', '\\']
  else if c = '\n' then ['\\', 'n']
  else if c = '\t' then ['\\', 't']
  else if c = '\r' then ['\\', 'r']
  else [c]

def escapeList : List Char → List Char
  | [] => []
  | c :: cs => escChar c ++ escapeList cs

/-- Decoding of a backslash escape, as `JSON.parse` performs it
(`\uXXXX` escapes are not modelled; `stringify` never emits them). -/
def unescChar (c : Char) : Option Char :=
  if c = '"' then some '"'
  else if c = '\\' then some '\\'
  else if c = '/' then some '/'
  else if c = 'n' then some '\n'
  else if c = 't' then some '\t'
  else if c = 'r' then some '\r'
  else if c = 'b' then some (Char.ofNat 8)
  else if c = 'f' then some (Char.ofNat 12)
  else none

mutual
/-- Body of a JSON string literal after the opening quote: the decoded
characters and the input after the closing quote. -/
def parseStrBody : List Char → Option (List Char × List Char)
  | [] => none
  | c :: cs =>
    if c = '"' then some ([], cs)
    else if c = '\\' then parseStrEsc cs
    else
      match parseStrBody cs with
      | some (s, r) => some (c :: s, r)
      | none => none

/-- Continuation of `parseStrBody` right after a backslash. -/
def parseStrEsc : List Char → Option (List Char × List Char)
  | [] => none
  | e :: cs =>
    match unescChar e, parseStrBody cs with
    | some d, some (s, r) => some (d :: s, r)
    | _, _ => none
end

theorem parseStrBody_escape (l : List Char) (rest : List Char) :
    parseStrBody (escapeList l ++ ('"' :: rest)) = some (l, rest) := by
  induction l with
  | nil => simp [escapeList, parseStrBody]
  | cons c cs ih =>
    by_cases h1 : c = '"'
    · subst h1; simp [escapeList, escChar, parseStrBody, parseStrEsc, unescChar, ih]
    · by_cases h2 : c = '\\'
      · subst h2; simp [escapeList, escChar, parseStrBody, parseStrEsc, unescChar, ih]
      · by_cases h3 : c = '\n'
        · subst h3; simp [escapeList, escChar, parseStrBody, parseStrEsc, unescChar, ih]
        · by_cases h4 : c = '\t'
          · subst h4; simp [escapeList, escChar, parseStrBody, parseStrEsc, unescChar, ih]
          · by_cases h5 : c = '\r'
            · subst h5; simp [escapeList, escChar, parseStrBody, parseStrEsc, unescChar, ih]
            · simp [escapeList, escChar, h1, h2, h3, h4, h5, parseStrBody, ih]

def braceL : Char := Char.ofNat 123

def braceR : Char := Char.ofNat 125

mutual
/-- Serialization of a value as `JSON.stringify` renders it, as a character
list.  Object fields keep insertion order, as JavaScript enumerates them. -/
def stringifyChars : Json → List Char
  | .null => "null".data
  | .bool true => "true".data
  | .bool false => "false".data
  | .num n => intDec n
  | .str s => '"' :: (escapeList s.data ++ ['"'])
  | .arr es => '[' :: (stringifyElems es ++ [']'])
  | .obj fs => braceL :: (stringifyMembers fs ++ [braceR])

def stringifyElems : JsonList → List Char
  | .nil => []
  | .cons v .nil => stringifyChars v
  | .cons v (.cons w es) => stringifyChars v ++ ',' :: stringifyElems (.cons w es)

def stringifyMembers : JsonFields → List Char
  | .nil => []
  | .cons k v .nil => '"' :: (escapeList k.data ++ '"' :: ':' :: stringifyChars v)
  | .cons k v (.cons k' w fs) =>
    ('"' :: (escapeList k.data ++ '"' :: ':' :: stringifyChars v)) ++
      ',' :: stringifyMembers (.cons k' w fs)
end

/-- The model of `JSON.stringify`. -/
def stringify (v : Json) : String := String.mk (stringifyChars v)

/-- Consume an expected literal character sequence from the input. -/
def expectChars : List Char → List Char → Option (List Char)
  | [], r => some r
  | _ :: _, [] => none
  | e :: es, c :: r => if c = e then expectChars es r else none

theorem expectChars_append (es : List Char) (rest : List Char) :
    expectChars es (es ++ rest) = some rest := by
  induction es with
  | nil => simp [expectChars]
  | cons e es ih => simp [expectChars, ih]

mutual
/-- Recursive-descent JSON value parser.  The fuel argument only bounds the
recursion depth; the top-level wrapper `parse` always supplies enough. -/
def parseVal : Nat → List Char → Option (Json × List Char)
  | 0, _ => none
  | _ + 1, [] => none
  | f + 1, c :: r =>
    if c = 'n' then
      match expectChars ['u', 'l', 'l'] r with
      | some r' => some (.null, r')
      | none => none
    else if c = 't' then
      match expectChars ['r', 'u', 'e'] r with
      | some r' => some (.bool true, r')
      | none => none
    else if c = 'f' then
      match expectChars ['a', 'l', 's', 'e'] r with
      | some r' => some (.bool false, r')
      | none => none
    else if c = '"' then
      match parseStrBody r with
      | some (s, r') => some (.str (String.mk s), r')
      | none => none
    else if c = '[' then
      match parseElems f r with
      | some (es, r') => some (.arr es, r')
      | none => none
    else if c = braceL then
      match parseMembers f r with
      | some (fs, r') => some (.obj fs, r')
      | none => none
    else parseNumber (c :: r)

def parseElems : Nat → List Char → Option (JsonList × List Char)
  | 0, _ => none
  | _ + 1, [] => none
  | f + 1, c :: r =>
    if c = ']' then some (.nil, r)
    else
      match parseVal f (c :: r) with
      | none => none
      | some (v, r') =>
        match r' with
        | [] => none
        | c2 :: r'' =>
          if c2 = ']' then some (.cons v .nil, r'')
          else if c2 = ',' then
            match parseElems f r'' with
            | none => none
            | some (es, r3) => some (.cons v es, r3)
          else none

def parseMembers : Nat → List Char → Option (JsonFields × List Char)
  | 0, _ => none
  | _ + 1, [] => none
  | f + 1, c :: r =>
    if c = braceR then some (.nil, r)
    else if c = '"' then
      match parseStrBody r with
      | none => none
      | some (k, r') =>
        match r' with
        | [] => none
        | c2 :: r'' =>
          if c2 = ':' then
            match parseVal f r'' with
            | none => none
            | some (v, r3) =>
              match r3 with
              | [] => none
              | c3 :: r4 =>
                if c3 = ',' then
                  match parseMembers f r4 with
                  | none => none
                  | some (fs, r5) => some (.cons (String.mk k) v fs, r5)
                else if c3 = braceR then some (.cons (String.mk k) v .nil, r4)
                else none
          else none
    else none
end

/-- The model of `JSON.parse`: the whole input must be consumed.  A `none`
result stands for the `SyntaxError` exception `JSON.parse` throws. -/
def parse (s : String) : Option Json :=
  match parseVal (2 * s.length + 2) s.data with
  | some (v, []) => some v
  | _ => none


theorem intDec_ne_nil (n : Int) : intDec n ≠ [] := by
  unfold intDec
  by_cases h : n < 0
  · simp [h]
  · simp [h, natDec_ne_nil]

theorem intDec_head (n : Int) (c : Char) (cs : List Char) (h : intDec n = c :: cs) :
    c = '-' ∨ isDigitChar c = true := by
  unfold intDec at h
  by_cases hn : n < 0
  · simp [hn] at h
    exact Or.inl h.1.symm
  · simp [hn] at h
    exact Or.inr (natDec_digits n.natAbs c (by simp [h]))

/-- A leading character produced by the integer printer is never mistaken
for the start of another JSON production. -/
theorem intDecHead_ne (c : Char) (h : c = '-' ∨ isDigitChar c = true) :
    ¬c = 'n' ∧ ¬c = 't' ∧ ¬c = 'f' ∧ ¬c = '"' ∧ ¬c = '[' ∧ ¬c = braceL ∧ ¬c = ']' := by
  rcases h with rfl | hd
  · refine ⟨?_, ?_, ?_, ?_, ?_, ?_, ?_⟩ <;> decide
  · refine ⟨?_, ?_, ?_, ?_, ?_, ?_, ?_⟩ <;> (intro he; subst he; revert hd; decide)

/-- Every serialized value starts with a character, and that character never
closes an array, so an element parse never collides with the end of its
enclosing array. -/
theorem stringifyChars_head (v : Json) :
    ∃ c cs, stringifyChars v = c :: cs ∧ ¬c = ']' := by
  cases v with
  | null => exact ⟨'n', _, rfl, by decide⟩
  | bool b =>
    cases b
    · exact ⟨'f', _, rfl, by decide⟩
    · exact ⟨'t', _, rfl, by decide⟩
  | num n =>
    cases hint : intDec n with
    | nil => exact absurd hint (intDec_ne_nil n)
    | cons c cs =>
      exact ⟨c, cs, by simp [stringifyChars, hint],
        (intDecHead_ne c (intDec_head n c cs hint)).2.2.2.2.2.2⟩
  | str s => exact ⟨'"', _, rfl, by decide⟩
  | arr es => exact ⟨'[', _, rfl, by decide⟩
  | obj fs => exact ⟨braceL, _, rfl, by decide⟩

theorem stringifyChars_length_pos (v : Json) : 1 ≤ (stringifyChars v).length := by
  obtain ⟨c, cs, h, _⟩ := stringifyChars_head v
  simp [h]

mutual
/-- Fuel that certainly suffices for `parseVal` to read the value back. -/
def needVal : Json → Nat
  | .arr es => 1 + needElems es
  | .obj fs => 1 + needMembers fs
  | _ => 1

def needElems : JsonList → Nat
  | .nil => 1
  | .cons v es => 1 + max (needVal v) (needElems es)

def needMembers : JsonFields → Nat
  | .nil => 1
  | .cons _ v fs => 1 + max (needVal v) (needMembers fs)
end

mutual
theorem needVal_le : ∀ v : Json, needVal v ≤ 2 * (stringifyChars v).length
  | .null => by simp [needVal, stringifyChars]
  | .bool b => by cases b <;> simp [needVal, stringifyChars]
  | .num n => by
    have := stringifyChars_length_pos (.num n)
    simp only [needVal]
    omega
  | .str s => by
    have := stringifyChars_length_pos (.str s)
    simp only [needVal]
    omega
  | .arr es => by
    have h := needElems_le es
    simp only [needVal, stringifyChars, List.length_cons, List.length_append, List.length_cons,
      List.length_nil]
    omega
  | .obj fs => by
    have h := needMembers_le fs
    simp only [needVal, stringifyChars, List.length_cons, List.length_append, List.length_cons,
      List.length_nil]
    omega

theorem needElems_le : ∀ es : JsonList, needElems es ≤ 2 * (stringifyElems es).length + 1
  | .nil => by simp [needElems, stringifyElems]
  | .cons v .nil => by
    have hv := needVal_le v
    have hp := stringifyChars_length_pos v
    simp only [needElems, needVal, stringifyElems]
    omega
  | .cons v (.cons w es) => by
    have hv := needVal_le v
    have ht := needElems_le (.cons w es)
    simp only [needElems, stringifyElems, List.length_append, List.length_cons]
    simp only [needElems] at ht
    omega

theorem needMembers_le : ∀ fs : JsonFields, needMembers fs ≤ 2 * (stringifyMembers fs).length + 1
  | .nil => by simp [needMembers, stringifyMembers]
  | .cons k v .nil => by
    have hv := needVal_le v
    simp only [needMembers, needVal, stringifyMembers, List.length_cons, List.length_append]
    omega
  | .cons k v (.cons k' w fs) => by
    have hv := needVal_le v
    have ht := needMembers_le (.cons k' w fs)
    simp only [needMembers, stringifyMembers, List.length_append, List.length_cons]
    simp only [needMembers] at ht
    omega
end

theorem stringMk_data (s : String) : String.mk s.data = s := rfl

theorem headOkB_cons (c : Char) (h : isDigitChar c = false) (r : List Char) :
    headOkB (c :: r) = true := by simp [headOkB, h]


theorem parseVal_n (g : Nat) (r : List Char) :
    parseVal (g + 1) ('n' :: r) =
      match expectChars ['u', 'l', 'l'] r with
      | some r' => some (.null, r')
      | none => none := by
  simp [parseVal]

theorem parseVal_t (g : Nat) (r : List Char) :
    parseVal (g + 1) ('t' :: r) =
      match expectChars ['r', 'u', 'e'] r with
      | some r' => some (.bool true, r')
      | none => none := by
  simp [parseVal]

theorem parseVal_f (g : Nat) (r : List Char) :
    parseVal (g + 1) ('f' :: r) =
      match expectChars ['a', 'l', 's', 'e'] r with
      | some r' => some (.bool false, r')
      | none => none := by
  simp [parseVal]

theorem parseVal_q (g : Nat) (r : List Char) :
    parseVal (g + 1) ('"' :: r) =
      match parseStrBody r with
      | some (s, r') => some (.str (String.mk s), r')
      | none => none := by
  simp [parseVal]

theorem parseVal_arr (g : Nat) (r : List Char) :
    parseVal (g + 1) ('[' :: r) =
      match parseElems g r with
      | some (es, r') => some (.arr es, r')
      | none => none := by
  simp [parseVal]

theorem parseVal_obj (g : Nat) (r : List Char) :
    parseVal (g + 1) (braceL :: r) =
      match parseMembers g r with
      | some (fs, r') => some (.obj fs, r')
      | none => none := by
  have h1 : ¬braceL = 'n' := by decide
  have h2 : ¬braceL = 't' := by decide
  have h3 : ¬braceL = 'f' := by decide
  have h4 : ¬braceL = '"' := by decide
  have h5 : ¬braceL = '[' := by decide
  simp [parseVal, h1, h2, h3, h4, h5]

theorem parseVal_other (g : Nat) (c : Char) (r : List Char)
    (h : c = '-' ∨ isDigitChar c = true) :
    parseVal (g + 1) (c :: r) = parseNumber (c :: r) := by
  obtain ⟨h1, h2, h3, h4, h5, h6, _⟩ := intDecHead_ne c h
  simp [parseVal, h1, h2, h3, h4, h5, h6]

theorem parseElems_close (g : Nat) (r : List Char) : parseElems (g + 1) (']' :: r) = some (.nil, r) := by
  simp [parseElems]

theorem parseElems_go (g : Nat) (c : Char) (r : List Char) (h : ¬c = ']') :
    parseElems (g + 1) (c :: r) =
      match parseVal g (c :: r) with
      | none => none
      | some (v, r') =>
        match r' with
        | [] => none
        | c2 :: r'' =>
          if c2 = ']' then some (.cons v .nil, r'')
          else if c2 = ',' then
            match parseElems g r'' with
            | none => none
            | some (es, r3) => some (.cons v es, r3)
          else none := by
  simp [parseElems, h]

theorem parseMembers_close (g : Nat) (r : List Char) :
    parseMembers (g + 1) (braceR :: r) = some (.nil, r) := by
  simp [parseMembers]

theorem parseMembers_key (g : Nat) (r : List Char) :
    parseMembers (g + 1) ('"' :: r) =
      match parseStrBody r with
      | none => none
      | some (k, r') =>
        match r' with
        | [] => none
        | c2 :: r'' =>
          if c2 = ':' then
            match parseVal g r'' with
            | none => none
            | some (v, r3) =>
              match r3 with
              | [] => none
              | c3 :: r4 =>
                if c3 = ',' then
                  match parseMembers g r4 with
                  | none => none
                  | some (fs, r5) => some (.cons (String.mk k) v fs, r5)
                else if c3 = braceR then some (.cons (String.mk k) v .nil, r4)
                else none
          else none := by
  have hq : ¬('"' : Char) = braceR := by decide
  simp [parseMembers, hq]

mutual
/-- Parsing reads back exactly the serialized value, leaving the rest of the
input untouched, whenever the rest does not begin with a digit. -/
theorem rt_val : ∀ (v : Json) (f : Nat) (rest : List Char), needVal v ≤ f →
    headOkB rest = true → parseVal f (stringifyChars v ++ rest) = some (v, rest)
  | .null, f, rest, hf, _ => by
    obtain ⟨g, rfl⟩ : ∃ g, f = g + 1 := ⟨f - 1, by simp [needVal] at hf; omega⟩
    show parseVal (g + 1) (['n', 'u', 'l', 'l'] ++ rest) = some (.null, rest)
    rw [List.cons_append, parseVal_n, expectChars_append]
  | .bool true, f, rest, hf, _ => by
    obtain ⟨g, rfl⟩ : ∃ g, f = g + 1 := ⟨f - 1, by simp [needVal] at hf; omega⟩
    show parseVal (g + 1) (['t', 'r', 'u', 'e'] ++ rest) = some (.bool true, rest)
    rw [List.cons_append, parseVal_t, expectChars_append]
  | .bool false, f, rest, hf, _ => by
    obtain ⟨g, rfl⟩ : ∃ g, f = g + 1 := ⟨f - 1, by simp [needVal] at hf; omega⟩
    show parseVal (g + 1) (['f', 'a', 'l', 's', 'e'] ++ rest) = some (.bool false, rest)
    rw [List.cons_append, parseVal_f, expectChars_append]
  | .num n, f, rest, hf, hr => by
    obtain ⟨g, rfl⟩ : ∃ g, f = g + 1 := ⟨f - 1, by simp [needVal] at hf; omega⟩
    obtain ⟨c, cs, hint, hor⟩ :
        ∃ c cs, intDec n = c :: cs ∧ (c = '-' ∨ isDigitChar c = true) := by
      cases hint : intDec n with
      | nil => exact absurd hint (intDec_ne_nil n)
      | cons c cs => exact ⟨c, cs, rfl, intDec_head n c cs hint⟩
    show parseVal (g + 1) (intDec n ++ rest) = some (.num n, rest)
    rw [hint, List.cons_append, parseVal_other g c (cs ++ rest) hor, ← List.cons_append,
      ← hint, parseNumber_intDec n rest hr]
  | .str s, f, rest, hf, _ => by
    obtain ⟨g, rfl⟩ : ∃ g, f = g + 1 := ⟨f - 1, by simp [needVal] at hf; omega⟩
    show parseVal (g + 1) (('"' :: (escapeList s.data ++ ['"'])) ++ rest) = some (.str s, rest)
    rw [List.cons_append, List.append_assoc, List.singleton_append, parseVal_q,
      parseStrBody_escape]
  | .arr es, f, rest, hf, _ => by
    obtain ⟨g, rfl⟩ : ∃ g, f = g + 1 := ⟨f - 1, by simp [needVal] at hf; omega⟩
    have hes : needElems es ≤ g := by simp [needVal] at hf; omega
    show parseVal (g + 1) (('[' :: (stringifyElems es ++ [']'])) ++ rest) = some (.arr es, rest)
    rw [List.cons_append, List.append_assoc, List.singleton_append, parseVal_arr,
      rt_elems es g rest hes]
  | .obj fs, f, rest, hf, _ => by
    obtain ⟨g, rfl⟩ : ∃ g, f = g + 1 := ⟨f - 1, by simp [needVal] at hf; omega⟩
    have hfs : needMembers fs ≤ g := by simp [needVal] at hf; omega
    show parseVal (g + 1) ((braceL :: (stringifyMembers fs ++ [braceR])) ++ rest) =
      some (.obj fs, rest)
    rw [List.cons_append, List.append_assoc, List.singleton_append, parseVal_obj,
      rt_members fs g rest hfs]

/-- Parsing reads back a serialized element sequence up to and including the
closing bracket. -/
theorem rt_elems : ∀ (es : JsonList) (f : Nat) (rest : List Char), needElems es ≤ f →
    parseElems f (stringifyElems es ++ (']' :: rest)) = some (es, rest)
  | .nil, f, rest, hf => by
    obtain ⟨g, rfl⟩ : ∃ g, f = g + 1 := ⟨f - 1, by simp [needElems] at hf; omega⟩
    show parseElems (g + 1) ([] ++ (']' :: rest)) = some (.nil, rest)
    rw [List.nil_append, parseElems_close]
  | .cons v .nil, f, rest, hf => by
    obtain ⟨g, rfl⟩ : ∃ g, f = g + 1 := ⟨f - 1, by simp [needElems] at hf; omega⟩
    have hv : needVal v ≤ g := by simp [needElems] at hf; omega
    obtain ⟨c, cs, hhead, hne⟩ := stringifyChars_head v
    have hval := rt_val v g (']' :: rest) hv (headOkB_cons _ (by decide) _)
    show parseElems (g + 1) (stringifyChars v ++ (']' :: rest)) = some (.cons v .nil, rest)
    rw [hhead, List.cons_append, parseElems_go g c _ hne, ← List.cons_append, ← hhead, hval]
    simp
  | .cons v (.cons w es), f, rest, hf => by
    obtain ⟨g, rfl⟩ : ∃ g, f = g + 1 := ⟨f - 1, by simp [needElems] at hf; omega⟩
    have hv : needVal v ≤ g := by simp [needElems] at hf; omega
    have ht : needElems (.cons w es) ≤ g := by simp only [needElems] at hf ⊢; omega
    obtain ⟨c, cs, hhead, hne⟩ := stringifyChars_head v
    have hval := rt_val v g (',' :: (stringifyElems (.cons w es) ++ (']' :: rest))) hv
      (headOkB_cons _ (by decide) _)
    have hrec := rt_elems (.cons w es) g rest ht
    show parseElems (g + 1)
      ((stringifyChars v ++ ',' :: stringifyElems (.cons w es)) ++ (']' :: rest)) =
      some (.cons v (.cons w es), rest)
    rw [List.append_assoc, List.cons_append, hhead, List.cons_append,
      parseElems_go g c _ hne, ← List.cons_append, ← hhead, hval]
    simp [hrec]

/-- Parsing reads back a serialized member sequence up to and including the
closing brace. -/
theorem rt_members : ∀ (fs : JsonFields) (f : Nat) (rest : List Char), needMembers fs ≤ f →
    parseMembers f (stringifyMembers fs ++ (braceR :: rest)) = some (fs, rest)
  | .nil, f, rest, hf => by
    obtain ⟨g, rfl⟩ : ∃ g, f = g + 1 := ⟨f - 1, by simp [needMembers] at hf; omega⟩
    show parseMembers (g + 1) ([] ++ (braceR :: rest)) = some (.nil, rest)
    rw [List.nil_append, parseMembers_close]
  | .cons k v .nil, f, rest, hf => by
    obtain ⟨g, rfl⟩ : ∃ g, f = g + 1 := ⟨f - 1, by simp [needMembers] at hf; omega⟩
    have hv : needVal v ≤ g := by simp [needMembers] at hf; omega
    have hval := rt_val v g (braceR :: rest) hv (headOkB_cons _ (by decide) _)
    have hbr : (braceR = ',') = False := by decide
    show parseMembers (g + 1)
      (('"' :: (escapeList k.data ++ '"' :: ':' :: stringifyChars v)) ++ (braceR :: rest)) =
      some (.cons k v .nil, rest)
    simp only [List.cons_append, List.append_assoc]
    rw [parseMembers_key, parseStrBody_escape]
    simp [hval, hbr, stringMk_data]
  | .cons k v (.cons k' w fs), f, rest, hf => by
    obtain ⟨g, rfl⟩ : ∃ g, f = g + 1 := ⟨f - 1, by simp [needMembers] at hf; omega⟩
    have hv : needVal v ≤ g := by simp [needMembers] at hf; omega
    have ht : needMembers (.cons k' w fs) ≤ g := by simp only [needMembers] at hf ⊢; omega
    have hval := rt_val v g (',' :: (stringifyMembers (.cons k' w fs) ++ (braceR :: rest))) hv
      (headOkB_cons _ (by decide) _)
    have hrec := rt_members (.cons k' w fs) g rest ht
    show parseMembers (g + 1)
      ((('"' :: (escapeList k.data ++ '"' :: ':' :: stringifyChars v)) ++
        ',' :: stringifyMembers (.cons k' w fs)) ++ (braceR :: rest)) =
      some (.cons k v (.cons k' w fs), rest)
    simp only [List.cons_append, List.append_assoc]
    rw [parseMembers_key, parseStrBody_escape]
    simp [hval, hrec, stringMk_data]
end

/-- Round trip of the host pair: `JSON.parse(JSON.stringify(v))` recovers
`v` for every JSON value. -/
theorem parse_stringify (v : Json) : parse (stringify v) = some v := by
  have hlen : (stringify v).length = (stringifyChars v).length := rfl
  have hfuel : needVal v ≤ 2 * (stringify v).length + 2 := by
    have h := needVal_le v
    omega
  have h := rt_val v (2 * (stringify v).length + 2) [] hfuel (by decide)
  rw [List.append_nil] at h
  unfold parse
  rw [show (stringify v).data = stringifyChars v from rfl, h]

/-- Host inputs of one manager call: `Date.now()` in milliseconds,
`new Date().toISOString()`, and the base-36 fraction digits that
`Math.random().toString(36).substr(2)` yields. -/
structure Env where
  nowMs : Nat
  nowIso : String
  randFrac : String
  deriving DecidableEq, Repr

/-- Manager state: the in-memory `this.topics` array together with the
browser's `localStorage` content. -/
structure MState where
  topics : List Json
  storage : String → Option String

/-- `localStorage.setItem(k, v)`. -/
def setItem (σ : String → Option String) (k v : String) : String → Option String :=
  fun k' => if k' = k then some v else σ k'

/-- `this.storageKey` of `script.js` line 8. -/
def storageKeyScript : String := "cyberlearn_shared_data"

/-- The storage key of `part_000` / `part_001` / `part_002` and
`create-post.js`. -/
def dataKey : String := "cyberlearn_data"

/-- `JSON.stringify(this.topics)`: the whole store as one blob. -/
def stringifyTopics (ts : List Json) : String := stringify (Json.arr (JsonList.ofList ts))

/-- `saveData` of `script.js` lines 38-42: writes the serialized topics
array under `this.storageKey` and an ISO timestamp under
`this.storageKey + '_updated'`. -/
def saveDataScript (e : Env) (ts : List Json) (σ : String → Option String) :
    String → Option String :=
  setItem (setItem σ storageKeyScript (stringifyTopics ts))
    (storageKeyScript ++ "_updated") e.nowIso

/-- `saveData` of `part_000` / `part_001` / `part_002` lines 24-26 and
`create-post.js` lines 141-143: one write of the serialized topics array
under `'cyberlearn_data'`. -/
def saveDataSingle (ts : List Json) (σ : String → Option String) : String → Option String :=
  setItem σ dataKey (stringifyTopics ts)

/-- `generateId()`:
`Date.now().toString(36) + Math.random().toString(36).substr(2)`. -/
def generateId (e : Env) : String := natBase36 e.nowMs ++ e.randFrac

/-- The predicate `t.id === id` used by `find`, `findIndex` and `filter`:
strict equality of the `id` property with the given string, false when the
property is `undefined` or not a string. -/
def hasId (id : String) (t : Json) : Bool := t.getF "id" = some (Json.str id)

/-- Replace the first list entry satisfying `p` by its image under `g`: the
functional rendering of `find` / `findIndex` followed by an in-place
mutation of the found element. -/
def updateFirst {α : Type} (p : α → Bool) (g : α → α) : List α → List α
  | [] => []
  | x :: xs => if p x then g x :: xs else x :: updateFirst p g xs

/-- The topic record literal built by `addTopic` (`script.js` lines 88-94):
fresh id, given name and description, empty contents, creation timestamp. -/
def mkTopic (e : Env) (name description : String) : Json :=
  Json.obj (.cons "id" (.str (generateId e)) (.cons "name" (.str name)
    (.cons "description" (.str description) (.cons "contents" (.arr .nil)
      (.cons "createdAt" (.str e.nowIso) .nil)))))

/-- `addTopic(name, description)` of `script.js` lines 87-98: push the new
record and save. -/
def addTopic (e : Env) (name description : String) (s : MState) : MState × Json :=
  let topic := mkTopic e name description
  let ts := s.topics ++ [topic]
  (⟨ts, saveDataScript e ts s.storage⟩, topic)

/-- The JavaScript default parameter `description = ''` of `addTopic`. -/
def addTopicDefault (e : Env) (name : String) (s : MState) : MState × Json :=
  addTopic e name "" s

/-- Property assignment `t[k] = v`: update in place or append on an object,
identity otherwise (a write to a found topic is always a write to an
object, because only objects satisfy `hasId`). -/
def Json.setF (t : Json) (k : String) (v : Json) : Json :=
  match t with
  | .obj fs => .obj (JsonFields.ofFields (insertField fs.toFields k v))
  | _ => t

/-- `updateTopic(id, name, description)` of `script.js` lines 100-107:
field overwrite on the first matching topic, then save; silently does
nothing when no topic matches. -/
def updateTopic (e : Env) (id name description : String) (s : MState) : MState :=
  match s.topics.find? (hasId id) with
  | none => s
  | some _ =>
    let ts := updateFirst (hasId id)
      (fun t => (t.setF "name" (.str name)).setF "description" (.str description)) s.topics
    ⟨ts, saveDataScript e ts s.storage⟩

/-- `deleteTopic(id)` of `script.js` lines 109-112:
`this.topics = this.topics.filter(t => t.id !== id)`, then save. -/
def deleteTopic (e : Env) (id : String) (s : MState) : MState :=
  let ts := s.topics.filter fun t => !(hasId id t)
  ⟨ts, saveDataScript e ts s.storage⟩

/-- Keys and values a JavaScript spread `...x` contributes to an object
literal: the own enumerable properties of `x` — the fields of an object,
the indexed elements of an array, the indexed single-character strings of a
string, and nothing for the primitives. -/
def spreadFields : Json → List (String × Json)
  | .obj fs => fs.toFields
  | .arr l => l.toList.enum.map fun p => (String.mk (natDec p.1), p.2)
  | .str s => s.data.enum.map fun p => (String.mk (natDec p.1), Json.str (String.mk [p.2]))
  | _ => []

/-- Merge of two field lists as a duplicate-keyed object literal resolves:
the old fields keep their positions with values overridden by the new list
where its key occurs, and keys new to the literal are appended in order. -/
def mergeFieldsAux (old new : List (String × Json)) : List (String × Json) :=
  (old.map fun kv => (kv.1, (lookupF new kv.1).getD kv.2)) ++
    new.filter fun kv => (lookupF old kv.1).isNone

/-- The object literal `... {...old, ...new}`: a shallow merge of the two
spreads under JavaScript literal semantics (first occurrence fixes the
position, last occurrence fixes the value). -/
def mergeSpread (old new : Json) : Json :=
  Json.obj (JsonFields.ofFields (mergeFieldsAux (spreadFields old) (spreadFields new)))

/-- `addContent(topicId, contentData)` of `script.js` lines 114-126: builds
`{id: generateId(), ...contentData, createdAt: iso}` and pushes it onto the
found topic's `contents`.  When `contents` is not an array, the JavaScript
`push` throws a `TypeError` before any list or storage mutation; the model
renders that as the unchanged state. -/
def addContent (e : Env) (topicId : String) (cd : Json) (s : MState) : MState × Option Json :=
  match s.topics.find? (hasId topicId) with
  | none => (s, none)
  | some t =>
    match t.getF "contents" with
    | some (.arr l) =>
      let content := Json.obj (JsonFields.ofFields (insertField
        ((spreadFields cd).foldl (fun fs kv => insertField fs kv.1 kv.2)
          [("id", Json.str (generateId e))])
        "createdAt" (Json.str e.nowIso)))
      let t' := t.setF "contents" (.arr (JsonList.ofList (l.toList ++ [content])))
      let ts := updateFirst (hasId topicId) (fun _ => t') s.topics
      (⟨ts, saveDataScript e ts s.storage⟩, some content)
    | _ => (s, none)

/-- `updateContent(topicId, contentId, contentData)` of `script.js` lines
128-140 / `create-post.js` lines 181-193: shallow merge
`{...contents[i], ...contentData}` at the first index whose content matches
`contentId`, then save; does nothing when the topic or the content is
missing. -/
def updateContent (e : Env) (topicId contentId : String) (cd : Json) (s : MState) : MState :=
  match s.topics.find? (hasId topicId) with
  | none => s
  | some t =>
    match t.getF "contents" with
    | some (.arr l) =>
      match l.toList.find? (hasId contentId) with
      | none => s
      | some _ =>
        let cl := updateFirst (hasId contentId) (fun old => mergeSpread old cd) l.toList
        let t' := t.setF "contents" (.arr (JsonList.ofList cl))
        let ts := updateFirst (hasId topicId) (fun _ => t') s.topics
        ⟨ts, saveDataScript e ts s.storage⟩
    | _ => s

/-- `deleteContent(topicId, contentId)` of `script.js` lines 142-148:
filter the found topic's contents and save (the assignment and save happen
whenever the topic is found and its contents filter). -/
def deleteContent (e : Env) (topicId contentId : String) (s : MState) : MState :=
  match s.topics.find? (hasId topicId) with
  | none => s
  | some t =>
    match t.getF "contents" with
    | some (.arr l) =>
      let cl := l.toList.filter fun c => !(hasId contentId c)
      let t' := t.setF "contents" (.arr (JsonList.ofList cl))
      let ts := updateFirst (hasId topicId) (fun _ => t') s.topics
      ⟨ts, saveDataScript e ts s.storage⟩
    | _ => s

/-- The sanitizer
`topic => ({...topic, contents: Array.isArray(topic.contents) ? topic.contents : []})`
of `part_001` lines 14-17 and 84-87. -/
def normalizeTopic (t : Json) : Json :=
  let c : Json :=
    match t.getF "contents" with
    | some (.arr l) => .arr l
    | _ => .arr .nil
  Json.obj (JsonFields.ofFields (insertField (spreadFields t) "contents" c))

/-- `loadData` of `part_001` / `part_002` lines 7-22: missing or empty
stored value loads the empty store; a parse error is caught and loads the
empty store; a non-array parse loads the empty store; otherwise every topic
is sanitized. -/
def loadDataSan (stored : Option String) : List Json :=
  match stored with
  | none => []
  | some data =>
    if data = "" then []
    else
      match parse data with
      | none => []
      | some (.arr l) => l.toList.map normalizeTopic
      | some _ => []

/-- `loadData` of `part_000` lines 7-10 (and the `localStorage` fallback of
`script.js` lines 29-33 and `create-post.js` lines 136-139):
`data ? JSON.parse(data) : []` with no try/catch around the parse; a `none`
result is the `SyntaxError` escaping the call. -/
def loadDataSimple (stored : Option String) : Option Json :=
  match stored with
  | none => some (Json.arr .nil)
  | some data => if data = "" then some (Json.arr .nil) else parse data

/-- The file body `JSON.stringify(this.topics, null, 2)` written by
`exportData` (`part_001` lines 64-75), up to the inter-token whitespace that
`JSON.parse` ignores. -/
def exportString (ts : List Json) : String := stringifyTopics ts

/-- `importData(file, callback)` of `part_001` lines 78-98: parse the file
text, require an array, sanitize every topic, save (single-key variant) and
report success; on a parse error or a non-array the state is untouched and
the callback reports failure. -/
def importData (s : String) (st : MState) : MState × Bool × String :=
  match parse s with
  | none => (st, false, "Error reading file. Please select a valid JSON file.")
  | some (.arr l) =>
    let ts := l.toList.map normalizeTopic
    (⟨ts, saveDataSingle ts st.storage⟩, true, "Data imported successfully!")
  | some _ => (st, false, "Invalid data format. Please select a valid backup file.")

theorem lookupF_mapVal (l : List (String × Json)) (g : String → Json → Json) (k : String) :
    lookupF (l.map fun kv => (kv.1, g kv.1 kv.2)) k = (lookupF l k).map (g k) := by
  induction l with
  | nil => simp [lookupF]
  | cons kv l ih =>
    obtain ⟨k', v'⟩ := kv
    by_cases hk : k' = k
    · subst hk; simp [lookupF]
    · simp [lookupF, hk, ih]

theorem lookupF_append_some (a b : List (String × Json)) (k : String) (v : Json)
    (h : lookupF a k = some v) : lookupF (a ++ b) k = some v := by
  induction a with
  | nil => simp [lookupF] at h
  | cons kv a ih =>
    obtain ⟨k', v'⟩ := kv
    by_cases hk : k' = k
    · subst hk; simp [lookupF] at h ⊢; exact h
    · simp [lookupF, hk] at h ⊢; exact ih h

theorem lookupF_append_none (a b : List (String × Json)) (k : String)
    (h : lookupF a k = none) : lookupF (a ++ b) k = lookupF b k := by
  induction a with
  | nil => simp
  | cons kv a ih =>
    obtain ⟨k', v'⟩ := kv
    by_cases hk : k' = k
    · subst hk; simp [lookupF] at h
    · simp [lookupF, hk] at h ⊢; exact ih h

theorem lookupF_filter (l : List (String × Json)) (p : String × Json → Bool) (k : String)
    (hp : ∀ v, p (k, v) = true) : lookupF (l.filter p) k = lookupF l k := by
  induction l with
  | nil => simp
  | cons kv l ih =>
    obtain ⟨k', v'⟩ := kv
    by_cases hk : k' = k
    · subst hk
      simp [List.filter_cons, hp v', lookupF]
    · cases hpk : p (k', v') <;> simp [List.filter_cons, hpk, lookupF, hk, ih]

theorem lookupF_merge_some (old new : List (String × Json)) (k : String) (v : Json)
    (h : lookupF new k = some v) : lookupF (mergeFieldsAux old new) k = some v := by
  unfold mergeFieldsAux
  cases hold : lookupF old k with
  | some w =>
    have hmap : lookupF (old.map fun kv => (kv.1, (lookupF new kv.1).getD kv.2)) k =
        some ((lookupF new k).getD w) := by
      rw [lookupF_mapVal old (fun k v => (lookupF new k).getD v) k, hold, Option.map_some']
    rw [lookupF_append_some _ _ _ _ hmap, h]
    simp
  | none =>
    have hmap : lookupF (old.map fun kv => (kv.1, (lookupF new kv.1).getD kv.2)) k = none := by
      rw [lookupF_mapVal old (fun k v => (lookupF new k).getD v) k, hold, Option.map_none']
    rw [lookupF_append_none _ _ _ hmap,
      lookupF_filter _ _ _ (fun v' => by simp [hold]), h]

theorem lookupF_merge_none (old new : List (String × Json)) (k : String)
    (h : lookupF new k = none) : lookupF (mergeFieldsAux old new) k = lookupF old k := by
  unfold mergeFieldsAux
  cases hold : lookupF old k with
  | some w =>
    have hmap : lookupF (old.map fun kv => (kv.1, (lookupF new kv.1).getD kv.2)) k =
        some ((lookupF new k).getD w) := by
      rw [lookupF_mapVal old (fun k v => (lookupF new k).getD v) k, hold, Option.map_some']
    rw [lookupF_append_some _ _ _ _ hmap, h]
    simp
  | none =>
    have hmap : lookupF (old.map fun kv => (kv.1, (lookupF new kv.1).getD kv.2)) k = none := by
      rw [lookupF_mapVal old (fun k v => (lookupF new k).getD v) k, hold, Option.map_none']
    rw [lookupF_append_none _ _ _ hmap, lookupF_filter _ _ _ (fun v' => by simp [hold])]
    simp [h, hold]

theorem getF_some_obj (t : Json) (k : String) (v : Json) (h : t.getF k = some v) :
    ∃ fs, t = Json.obj fs := by
  cases t with
  | obj fs => exact ⟨fs, rfl⟩
  | null => simp [Json.getF] at h
  | bool b => simp [Json.getF] at h
  | num n => simp [Json.getF] at h
  | str s => simp [Json.getF] at h
  | arr l => simp [Json.getF] at h

theorem getF_mergeSpread_some (fo fn : JsonFields) (k : String) (v : Json)
    (h : (Json.obj fn).getF k = some v) :
    (mergeSpread (Json.obj fo) (Json.obj fn)).getF k = some v := by
  have h' : lookupF fn.toFields k = some v := h
  show lookupF (JsonFields.ofFields
    (mergeFieldsAux (spreadFields (Json.obj fo)) (spreadFields (Json.obj fn)))).toFields k =
    some v
  rw [JsonFields.toFields_ofFields]
  exact lookupF_merge_some _ _ _ _ h'

theorem getF_mergeSpread_none (fo fn : JsonFields) (k : String)
    (h : (Json.obj fn).getF k = none) :
    (mergeSpread (Json.obj fo) (Json.obj fn)).getF k = (Json.obj fo).getF k := by
  have h' : lookupF fn.toFields k = none := h
  show lookupF (JsonFields.ofFields
    (mergeFieldsAux (spreadFields (Json.obj fo)) (spreadFields (Json.obj fn)))).toFields k =
    (Json.obj fo).getF k
  rw [JsonFields.toFields_ofFields]
  exact lookupF_merge_none _ _ _ h'

theorem updateFirst_append {α : Type} (p : α → Bool) (g : α → α) (pre : List α) (a : α)
    (post : List α) (hpre : ∀ x ∈ pre, p x = false) (ha : p a = true) :
    updateFirst p g (pre ++ a :: post) = pre ++ g a :: post := by
  induction pre with
  | nil => simp [updateFirst, ha]
  | cons x xs ih =>
    have hx := hpre x (by simp)
    simp only [List.cons_append, updateFirst, hx, if_false, Bool.false_eq_true, List.append_eq]
    rw [ih (fun y hy => hpre y (by simp [hy]))]

theorem find?_concat_first {α : Type} (p : α → Bool) (pre : List α) (a : α) (post : List α)
    (hpre : ∀ x ∈ pre, p x = false) (ha : p a = true) :
    (pre ++ a :: post).find? p = some a := by
  induction pre with
  | nil => simpa using List.find?_cons_of_pos post ha
  | cons x xs ih =>
    have hx := hpre x (by simp)
    rw [List.cons_append, List.find?_cons_of_neg _ (by simp [hx])]
    exact ih (fun y hy => hpre y (by simp [hy]))

theorem updateFirst_self {α : Type} (p : α → Bool) (g : α → α) (l : List α) (a : α)
    (h : l.find? p = some a) (hg : g a = a) : updateFirst p g l = l := by
  induction l with
  | nil => simp [List.find?] at h
  | cons x xs ih =>
    cases hpx : p x with
    | true =>
      rw [List.find?_cons_of_pos _ hpx] at h
      obtain rfl : x = a := by injection h
      simp [updateFirst, hpx, hg]
    | false =>
      rw [List.find?_cons_of_neg _ (by simp [hpx])] at h
      simp [updateFirst, hpx, ih h]

theorem normalizeTopic_contentsIsArr (t : Json) :
    ∃ l, (normalizeTopic t).getF "contents" = some (Json.arr l) := by
  unfold normalizeTopic
  cases hc : t.getF "contents" with
  | none =>
    refine ⟨.nil, ?_⟩
    show lookupF (JsonFields.ofFields _).toFields "contents" = _
    rw [JsonFields.toFields_ofFields, lookupF_insertField]
  | some v =>
    cases v with
    | arr l =>
      refine ⟨l, ?_⟩
      show lookupF (JsonFields.ofFields _).toFields "contents" = _
      rw [JsonFields.toFields_ofFields, lookupF_insertField]
    | null =>
      refine ⟨.nil, ?_⟩
      show lookupF (JsonFields.ofFields _).toFields "contents" = _
      rw [JsonFields.toFields_ofFields, lookupF_insertField]
    | bool b =>
      refine ⟨.nil, ?_⟩
      show lookupF (JsonFields.ofFields _).toFields "contents" = _
      rw [JsonFields.toFields_ofFields, lookupF_insertField]
    | num n =>
      refine ⟨.nil, ?_⟩
      show lookupF (JsonFields.ofFields _).toFields "contents" = _
      rw [JsonFields.toFields_ofFields, lookupF_insertField]
    | str s =>
      refine ⟨.nil, ?_⟩
      show lookupF (JsonFields.ofFields _).toFields "contents" = _
      rw [JsonFields.toFields_ofFields, lookupF_insertField]
    | obj fs =>
      refine ⟨.nil, ?_⟩
      show lookupF (JsonFields.ofFields _).toFields "contents" = _
      rw [JsonFields.toFields_ofFields, lookupF_insertField]

theorem normalizeTopic_id (t : Json) (l : JsonList)
    (h : t.getF "contents" = some (Json.arr l)) : normalizeTopic t = t := by
  obtain ⟨fs, rfl⟩ := getF_some_obj t "contents" _ h
  have h' : lookupF fs.toFields "contents" = some (Json.arr l) := h
  unfold normalizeTopic
  rw [h]
  show Json.obj (JsonFields.ofFields (insertField fs.toFields "contents" (Json.arr l))) =
    Json.obj fs
  rw [lookupF_insertField_self _ _ _ h', JsonFields.ofFields_toFields]

/-- C8: identifier generation is the base-36 clock concatenated with the
base-36 random suffix, and two calls whose clock and random inputs differ
can produce the same identifier, so uniqueness is only probabilistic. -/
theorem claim8_generateId_collision :
    generateId ⟨1, "t", "11"⟩ = generateId ⟨37, "t", "1"⟩ ∧
      (⟨1, "t", "11"⟩ : Env) ≠ (⟨37, "t", "1"⟩ : Env) := by
  constructor <;> decide

/-- C6: `addTopic` appends exactly one record of the documented shape — the
generated id, the given name, the given description (empty by default), an
empty contents list and the creation timestamp — and leaves every
pre-existing topic unchanged. -/
theorem claim6_addTopic_shape (e : Env) (name description : String) (s : MState) :
    ∃ t, (addTopic e name description s).1.topics = s.topics ++ [t] ∧
      (addTopic e name description s).2 = t ∧
      t.getF "id" = some (.str (generateId e)) ∧
      t.getF "name" = some (.str name) ∧
      t.getF "description" = some (.str description) ∧
      t.getF "contents" = some (.arr .nil) ∧
      t.getF "createdAt" = some (.str e.nowIso) ∧
      addTopicDefault e name s = addTopic e name "" s := by
  exact ⟨mkTopic e name description, rfl, rfl, rfl, rfl, rfl, rfl, rfl, rfl⟩

/-- C5: `deleteTopic` removes exactly the topics whose `id` strictly equals
the given id; the surviving topics keep their relative order (sublist) and
their multiplicity, and are otherwise unmodified. -/
theorem claim5_deleteTopic_filter (e : Env) (id : String) (s : MState) :
    ((deleteTopic e id s).topics.Sublist s.topics) ∧
    (∀ t, t ∈ (deleteTopic e id s).topics ↔
      t ∈ s.topics ∧ t.getF "id" ≠ some (Json.str id)) ∧
    (∀ t, t.getF "id" ≠ some (Json.str id) →
      (deleteTopic e id s).topics.count t = s.topics.count t) := by
  refine ⟨List.filter_sublist _, ?_, ?_⟩
  · intro t
    show t ∈ s.topics.filter (fun t => !(hasId id t)) ↔ _
    rw [List.mem_filter]
    simp [hasId]
  · intro t ht
    show (s.topics.filter (fun t => !(hasId id t))).count t = _
    exact List.count_filter (by simp [hasId, ht])

/-- Witness for C5: deleting a missing id keeps the multiplicity of a
concrete surviving topic. -/
theorem claim5_witness :
    ((deleteTopic ⟨0, "t", "r"⟩ "zz"
        ⟨[Json.obj (.cons "id" (.str "a") .nil)], fun _ => none⟩).topics.count
      (Json.obj (.cons "id" (.str "a") .nil))) =
    (([Json.obj (.cons "id" (.str "a") .nil)] : List Json).count
      (Json.obj (.cons "id" (.str "a") .nil))) := by
  exact (claim5_deleteTopic_filter ⟨0, "t", "r"⟩ "zz"
    ⟨[Json.obj (.cons "id" (.str "a") .nil)], fun _ => none⟩).2.2
    (Json.obj (.cons "id" (.str "a") .nil)) (by decide)

/-- C4 counterexample: the `script.js` variant of `saveData` (lines 38-42)
touches a second key — the companion `…_updated` timestamp key — so it is
not true that every `saveData` call writes exactly one key. -/
theorem claim4_cex :
    saveDataScript ⟨0, "t", ""⟩ [] (fun _ => none) "cyberlearn_shared_data_updated" ≠
      (fun _ => (none : Option String)) "cyberlearn_shared_data_updated" := by
  decide

/-- C4 amended: the whole serialized store always lands under the single
data key; the `part_*` / `create-post` variant writes exactly that one key,
while the `script.js` variant additionally refreshes its companion
`…_updated` timestamp key; no other key of the store is ever touched by
persistence. -/
theorem claim4_single_key (e : Env) (ts : List Json) (σ : String → Option String)
    (k : String) :
    saveDataSingle ts σ dataKey = some (stringifyTopics ts) ∧
    (k ≠ dataKey → saveDataSingle ts σ k = σ k) ∧
    saveDataScript e ts σ storageKeyScript = some (stringifyTopics ts) ∧
    (k ≠ storageKeyScript → k ≠ storageKeyScript ++ "_updated" →
      saveDataScript e ts σ k = σ k) := by
  have h1 : storageKeyScript ≠ storageKeyScript ++ "_updated" := by decide
  refine ⟨?_, ?_, ?_, ?_⟩
  · simp [saveDataSingle, setItem]
  · intro hk
    simp [saveDataSingle, setItem, hk]
  · simp [saveDataScript, setItem, h1]
  · intro hk1 hk2
    simp [saveDataScript, setItem, hk1, hk2]

/-- Witness for C4 amended: a key different from both persisted keys is left
untouched by both `saveData` variants. -/
theorem claim4_witness :
    saveDataSingle [] (fun _ => none) "other" = none ∧
    saveDataScript ⟨0, "t", ""⟩ [] (fun _ => none) "other" = none := by
  refine ⟨?_, ?_⟩
  · exact (claim4_single_key ⟨0, "t", ""⟩ [] (fun _ => none) "other").2.1 (by decide)
  · exact (claim4_single_key ⟨0, "t", ""⟩ [] (fun _ => none) "other").2.2.2
      (by decide) (by decide)

/-- C3 counterexample: `"oops"` is not valid JSON, yet the `part_000` loader
does not return the empty list — its `JSON.parse` call has no try/catch, so
the `SyntaxError` escapes (the `none` result). -/
theorem claim3_cex : parse "oops" = none ∧ loadDataSimple (some "oops") = none := by
  constructor <;> decide

/-- C3 amended: on a stored string that is not valid JSON the sanitizing
loaders (`part_001` / `part_002`) catch the parse error and return the
empty list, while the plain variants (`part_000`, the `localStorage`
fallback of `script.js`, and `create-post.js`) let the exception escape. -/
theorem claim3_load_recovery (d : String) (h : parse d = none) :
    loadDataSan (some d) = [] ∧ (d ≠ "" → loadDataSimple (some d) = none) := by
  constructor
  · by_cases hd : d = ""
    · simp [loadDataSan, hd]
    · simp [loadDataSan, hd, h]
  · intro hd
    simp [loadDataSimple, hd, h]

/-- Witness for C3 amended at the concrete invalid stored string. -/
theorem claim3_witness :
    loadDataSan (some "oops") = [] ∧ loadDataSimple (some "oops") = none := by
  have h := claim3_load_recovery "oops" (by decide)
  exact ⟨h.1, h.2 (by decide)⟩

/-- The C1 invariant: the persisted blob under the data key equals the JSON
serialization of the entire in-memory topics list. -/
def blobInv (s : MState) : Prop :=
  s.storage storageKeyScript = some (stringifyTopics s.topics)

/-- C1: every mutating manager operation re-establishes the persistence
invariant — after the operation the blob is again the serialization of the
whole (possibly updated) topics list, written in one `setItem` call; the
operations that find nothing to mutate leave both sides untouched. -/
theorem claim1_persist (e : Env) (id tid cid name description : String) (cd : Json)
    (s : MState) (h : blobInv s) :
    blobInv (addTopic e name description s).1 ∧
    blobInv (updateTopic e id name description s) ∧
    blobInv (deleteTopic e id s) ∧
    blobInv (addContent e tid cd s).1 ∧
    blobInv (updateContent e tid cid cd s) ∧
    blobInv (deleteContent e tid cid s) := by
  have h1 : storageKeyScript ≠ storageKeyScript ++ "_updated" := by decide
  have hsave : ∀ (ts : List Json) (σ : String → Option String),
      saveDataScript e ts σ storageKeyScript = some (stringifyTopics ts) := by
    intro ts σ
    simp [saveDataScript, setItem, h1]
  have hsave2 : ∀ (ts : List Json) (σ : String → Option String),
      blobInv ⟨ts, saveDataScript e ts σ⟩ := hsave
  refine ⟨?_, ?_, ?_, ?_, ?_, ?_⟩
  · exact hsave (s.topics ++ [mkTopic e name description]) s.storage
  · unfold updateTopic
    split
    · exact h
    · exact hsave (updateFirst (hasId id)
        (fun t => (t.setF "name" (.str name)).setF "description" (.str description))
        s.topics) s.storage
  · exact hsave (s.topics.filter fun t => !(hasId id t)) s.storage
  · unfold addContent
    split
    · exact h
    · split
      · exact hsave2 _ _
      · exact h
  · unfold updateContent
    split
    · exact h
    · split
      · split
        · exact h
        · exact hsave2 _ _
      · exact h
  · unfold deleteContent
    split
    · exact h
    · split
      · exact hsave2 _ _
      · exact h

/-- Witness for C1: a state satisfying the invariant still satisfies it
after `addTopic`. -/
theorem claim1_witness :
    blobInv (addTopic ⟨0, "t", "r"⟩ "n" "d"
      ⟨[], fun k => if k = storageKeyScript then some (stringifyTopics []) else none⟩).1 := by
  exact (claim1_persist ⟨0, "t", "r"⟩ "i" "ti" "ci" "n" "d" Json.null
    ⟨[], fun k => if k = storageKeyScript then some (stringifyTopics []) else none⟩
    (by simp [blobInv])).1

theorem map_id_of_forall {α : Type} (f : α → α) :
    ∀ l : List α, (∀ t ∈ l, f t = t) → l.map f = l := by
  intro l
  induction l with
  | nil => intro _; rfl
  | cons a l ih =>
    intro hl
    rw [List.map_cons, hl a (by simp), ih (fun t ht => hl t (by simp [ht]))]

/-- C2: export/import round-trip — for every topics list whose topics all
carry an array `contents` field, importing the exported JSON text restores
the identical in-memory topics list and the import reports success. -/
theorem claim2_round_trip (st : MState) (ts : List Json)
    (h : ∀ t ∈ ts, ∃ l, t.getF "contents" = some (Json.arr l)) :
    (importData (exportString ts) st).1.topics = ts ∧
    (importData (exportString ts) st).2.1 = true := by
  have hp : parse (exportString ts) = some (Json.arr (JsonList.ofList ts)) :=
    parse_stringify (Json.arr (JsonList.ofList ts))
  have hmap : (JsonList.ofList ts).toList.map normalizeTopic = ts := by
    rw [JsonList.toList_ofList]
    exact map_id_of_forall _ ts fun t ht => by
      obtain ⟨l, hl⟩ := h t ht
      exact normalizeTopic_id t l hl
  unfold importData
  rw [hp]
  exact ⟨hmap, rfl⟩

/-- Witness for C2 at a concrete one-topic store. -/
theorem claim2_witness :
    (importData (exportString [Json.obj (.cons "id" (.str "1")
        (.cons "contents" (.arr .nil) .nil))]) ⟨[], fun _ => none⟩).1.topics =
      [Json.obj (.cons "id" (.str "1") (.cons "contents" (.arr .nil) .nil))] := by
  refine (claim2_round_trip ⟨[], fun _ => none⟩ _ ?_).1
  intro t ht
  simp only [List.mem_singleton] at ht
  subst ht
  exact ⟨.nil, rfl⟩

/-- C10: import is atomic on failure — invalid JSON or a non-array parse
leaves the state (topics and storage) untouched and reports failure through
the callback — and on success every imported topic is normalized so that
its `contents` field is an array. -/
theorem claim10_import_atomic (st : MState) (s : String) :
    (parse s = none →
      importData s st = (st, false, "Error reading file. Please select a valid JSON file.")) ∧
    (∀ v, parse s = some v → (∀ l, v ≠ Json.arr l) →
      importData s st =
        (st, false, "Invalid data format. Please select a valid backup file.")) ∧
    (∀ l, parse s = some (Json.arr l) →
      (importData s st).1.topics = l.toList.map normalizeTopic ∧
      (importData s st).2.1 = true ∧
      ∀ t ∈ (importData s st).1.topics, ∃ cl, t.getF "contents" = some (Json.arr cl)) := by
  refine ⟨?_, ?_, ?_⟩
  · intro h
    unfold importData
    rw [h]
  · intro v h hv
    unfold importData
    rw [h]
    cases v with
    | arr l => exact absurd rfl (hv l)
    | null => rfl
    | bool b => rfl
    | num n => rfl
    | str s' => rfl
    | obj fs => rfl
  · intro l h
    unfold importData
    rw [h]
    refine ⟨rfl, rfl, ?_⟩
    intro t ht
    obtain ⟨u, _, rfl⟩ := List.mem_map.1 ht
    exact normalizeTopic_contentsIsArr u

/-- Witness for C10: a concrete invalid input leaves a concrete state
untouched and reports failure. -/
theorem claim10_witness :
    importData "oops" ⟨[], fun _ => none⟩ =
      (⟨[], fun _ => none⟩, false, "Error reading file. Please select a valid JSON file.") := by
  exact (claim10_import_atomic ⟨[], fun _ => none⟩ "oops").1 (by decide)

/-- C9: mutations addressed at a missing record are no-ops on the data —
`updateTopic` with an unknown id, and `addContent` / `updateContent` /
`deleteContent` with an unknown topic id, leave the state untouched and
return no record; `updateContent` with an unknown content id leaves the
state untouched, and `deleteContent` with an unknown content id leaves the
topics list unchanged. -/
theorem claim9_missing_noop (e : Env) (id tid cid name description : String) (cd : Json)
    (s : MState) :
    (s.topics.find? (hasId id) = none → updateTopic e id name description s = s) ∧
    (s.topics.find? (hasId tid) = none →
      addContent e tid cd s = (s, none) ∧
      updateContent e tid cid cd s = s ∧
      deleteContent e tid cid s = s) ∧
    (∀ t l, s.topics.find? (hasId tid) = some t →
      t.getF "contents" = some (Json.arr l) →
      l.toList.find? (hasId cid) = none →
      updateContent e tid cid cd s = s ∧
      (deleteContent e tid cid s).topics = s.topics) := by
  refine ⟨?_, ?_, ?_⟩
  · intro h
    unfold updateTopic
    simp only [h]
  · intro h
    refine ⟨?_, ?_, ?_⟩
    · unfold addContent
      simp only [h]
    · unfold updateContent
      simp only [h]
    · unfold deleteContent
      simp only [h]
  · intro t l hft hc hfc
    obtain ⟨fs, rfl⟩ := getF_some_obj t "contents" _ hc
    have hc' : lookupF fs.toFields "contents" = some (Json.arr l) := hc
    constructor
    · unfold updateContent
      simp only [hft, hc, hfc]
    · unfold deleteContent
      simp only [hft, hc]
      have hall : ∀ c ∈ l.toList, hasId cid c = false := by
        intro c hcm
        have := List.find?_eq_none.1 hfc c hcm
        simpa using this
      have hfilter : (l.toList.filter fun c => !(hasId cid c)) = l.toList :=
        List.filter_eq_self.2 fun c hcm => by simp [hall c hcm]
      have hbody : (Json.obj fs).setF "contents"
          (Json.arr (JsonList.ofList (l.toList.filter fun c => !(hasId cid c)))) =
          Json.obj fs := by
        rw [hfilter, JsonList.ofList_toList]
        show Json.obj (JsonFields.ofFields (insertField fs.toFields "contents" (Json.arr l))) =
          Json.obj fs
        rw [lookupF_insertField_self _ _ _ hc', JsonFields.ofFields_toFields]
      simp only [hbody]
      exact updateFirst_self _ _ _ _ hft rfl

/-- Witness for C9 at a concrete one-topic store: an unknown topic id and an
unknown content id mutate nothing. -/
theorem claim9_witness :
    updateTopic ⟨0, "t", "r"⟩ "zz" "n" "d"
      ⟨[Json.obj (.cons "id" (.str "a") (.cons "contents" (.arr .nil) .nil))],
        fun _ => none⟩ =
      ⟨[Json.obj (.cons "id" (.str "a") (.cons "contents" (.arr .nil) .nil))],
        fun _ => none⟩ ∧
    addContent ⟨0, "t", "r"⟩ "zz" Json.null
      ⟨[Json.obj (.cons "id" (.str "a") (.cons "contents" (.arr .nil) .nil))],
        fun _ => none⟩ =
      (⟨[Json.obj (.cons "id" (.str "a") (.cons "contents" (.arr .nil) .nil))],
        fun _ => none⟩, none) ∧
    updateContent ⟨0, "t", "r"⟩ "a" "cc" Json.null
      ⟨[Json.obj (.cons "id" (.str "a") (.cons "contents" (.arr .nil) .nil))],
        fun _ => none⟩ =
      ⟨[Json.obj (.cons "id" (.str "a") (.cons "contents" (.arr .nil) .nil))],
        fun _ => none⟩ ∧
    (deleteContent ⟨0, "t", "r"⟩ "a" "cc"
      ⟨[Json.obj (.cons "id" (.str "a") (.cons "contents" (.arr .nil) .nil))],
        fun _ => none⟩).topics =
      [Json.obj (.cons "id" (.str "a") (.cons "contents" (.arr .nil) .nil))] := by
  refine ⟨?_, ?_, ?_, ?_⟩
  · exact (claim9_missing_noop ⟨0, "t", "r"⟩ "zz" "zz" "cc" "n" "d" Json.null _).1 (by decide)
  · exact ((claim9_missing_noop ⟨0, "t", "r"⟩ "zz" "zz" "cc" "n" "d" Json.null _).2.1
      (by decide)).1
  · exact ((claim9_missing_noop ⟨0, "t", "r"⟩ "zz" "a" "cc" "n" "d" Json.null _).2.2
      (Json.obj (.cons "id" (.str "a") (.cons "contents" (.arr .nil) .nil))) .nil
      (by decide) (by decide) (by decide)).1
  · exact ((claim9_missing_noop ⟨0, "t", "r"⟩ "zz" "a" "cc" "n" "d" Json.null _).2.2
      (Json.obj (.cons "id" (.str "a") (.cons "contents" (.arr .nil) .nil))) .nil
      (by decide) (by decide) (by decide)).2

/-- C7: `updateContent` performs a shallow merge in place — with the topic
list split around the first topic matching `topicId` and its contents split
around the first content matching `contentId`, the merged record replaces
that content at its position, all other contents and topics are unchanged,
and the merge takes every key of `contentData` at `contentData`'s value
while keys absent from `contentData` (such as `id` and `createdAt`, which
the UI never passes) keep their previous value. -/
theorem claim7_updateContent_merge (e : Env) (tid cid : String) (fd : JsonFields)
    (s : MState) (pre post : List Json) (t0 : Json) (cpre cpost : List Json)
    (f0 : JsonFields) (l : JsonList)
    (hs : s.topics = pre ++ t0 :: post)
    (hpre : ∀ x ∈ pre, hasId tid x = false)
    (ht0 : hasId tid t0 = true)
    (hc : t0.getF "contents" = some (Json.arr l))
    (hl : l.toList = cpre ++ Json.obj f0 :: cpost)
    (hcpre : ∀ c ∈ cpre, hasId cid c = false)
    (hc0 : hasId cid (Json.obj f0) = true) :
    (updateContent e tid cid (Json.obj fd) s).topics =
      pre ++ (t0.setF "contents" (Json.arr (JsonList.ofList
        (cpre ++ mergeSpread (Json.obj f0) (Json.obj fd) :: cpost)))) :: post ∧
    (∀ k v, (Json.obj fd).getF k = some v →
      (mergeSpread (Json.obj f0) (Json.obj fd)).getF k = some v) ∧
    (∀ k, (Json.obj fd).getF k = none →
      (mergeSpread (Json.obj f0) (Json.obj fd)).getF k = (Json.obj f0).getF k) := by
  refine ⟨?_, fun k v h => getF_mergeSpread_some f0 fd k v h,
    fun k h => getF_mergeSpread_none f0 fd k h⟩
  have hfind1 : (pre ++ t0 :: post).find? (hasId tid) = some t0 :=
    find?_concat_first _ _ _ _ hpre ht0
  have hfind2 : (cpre ++ Json.obj f0 :: cpost).find? (hasId cid) = some (Json.obj f0) :=
    find?_concat_first _ _ _ _ hcpre hc0
  have hinner : updateFirst (hasId cid) (fun old => mergeSpread old (Json.obj fd))
      (cpre ++ Json.obj f0 :: cpost) =
      cpre ++ mergeSpread (Json.obj f0) (Json.obj fd) :: cpost :=
    updateFirst_append _ _ _ _ _ hcpre hc0
  have houter : ∀ t' : Json, updateFirst (hasId tid) (fun _ => t') (pre ++ t0 :: post) =
      pre ++ t' :: post := fun t' => updateFirst_append _ _ _ _ _ hpre ht0
  unfold updateContent
  simp only [hs, hfind1, hc, hl, hfind2, hinner, houter]

/-- Witness for C7: merging a one-key record into a concrete content. -/
theorem claim7_witness :
    (updateContent ⟨0, "t", "r"⟩ "a" "c" (Json.obj (.cons "old" (.str "nv") .nil))
      ⟨[Json.obj (.cons "id" (.str "a") (.cons "contents"
        (.arr (.cons (Json.obj (.cons "id" (.str "c") (.cons "old" (.str "ov") .nil)))
          .nil)) .nil))], fun _ => none⟩).topics =
      [(Json.obj (.cons "id" (.str "a") (.cons "contents"
        (.arr (.cons (Json.obj (.cons "id" (.str "c") (.cons "old" (.str "ov") .nil)))
          .nil)) .nil))).setF "contents" (Json.arr (JsonList.ofList
        [mergeSpread (Json.obj (.cons "id" (.str "c") (.cons "old" (.str "ov") .nil)))
          (Json.obj (.cons "old" (.str "nv") .nil))]))] := by
  exact (claim7_updateContent_merge ⟨0, "t", "r"⟩ "a" "c" (.cons "old" (.str "nv") .nil)
    ⟨[Json.obj (.cons "id" (.str "a") (.cons "contents"
      (.arr (.cons (Json.obj (.cons "id" (.str "c") (.cons "old" (.str "ov") .nil)))
        .nil)) .nil))], fun _ => none⟩
    [] []
    (Json.obj (.cons "id" (.str "a") (.cons "contents"
      (.arr (.cons (Json.obj (.cons "id" (.str "c") (.cons "old" (.str "ov") .nil)))
        .nil)) .nil)))
    [] []
    (.cons "id" (.str "c") (.cons "old" (.str "ov") .nil))
    (.cons (Json.obj (.cons "id" (.str "c") (.cons "old" (.str "ov") .nil))) .nil)
    rfl (by simp) (by decide) (by decide) rfl (by simp) (by decide)).1
